import Mathlib

/-!
# Verification of the text-to-speech conversion pipeline

This file is a shallow embedding, in Lean 4, of the core pipeline of the
`vite-upgrade-text-to-speech` repository:

* `src/lib/text-processing.ts` — whitespace normalization
  (`removeExtraWhitespaces`), sentence-boundary chunking
  (`splitTextIntoChunks`, `chunkText`), input validation
  (`validateTextForTTS`);
* `src/lib/audio-utils.ts` — audio merging (`mergeAudioBuffers`);
* `src/hooks/useTTS.ts` — the request client (`sendTextForTTS`) and the
  batch orchestrator (`convertMultiple`).

Strings are modelled as `List Char`; JavaScript exceptions are modelled with
`Option`/`Except` (`none` / `.error` = the function throws); machine numbers
are `Nat` with exact rational comparisons (`x > 1.5 * m` becomes
`2 * x > 3 * m`).  Loops that advance an index through a string are modelled
by structural recursion on an explicit iteration budget (`fuel`); each
entry point passes a budget that is proved sufficient (the loop index
strictly increases on every iteration), so the budget never runs out from
an entry point.
-/

/-- The JavaScript whitespace class `\s` (also used by `String.prototype.trim`):
tab through carriage return, space, NBSP, and the Unicode space separators. -/
def isWs (c : Char) : Bool :=
  (0x09 ≤ c.toNat && c.toNat ≤ 0x0d) || c = ' ' || c.toNat = 0xa0 ||
  c.toNat = 0x1680 || (0x2000 ≤ c.toNat && c.toNat ≤ 0x200a) ||
  c.toNat = 0x2028 || c.toNat = 0x2029 || c.toNat = 0x202f ||
  c.toNat = 0x205f || c.toNat = 0x3000 || c.toNat = 0xfeff

/-- `String.prototype.trim`: drop leading and trailing whitespace. -/
def trim (s : List Char) : List Char :=
  ((s.dropWhile isWs).reverse.dropWhile isWs).reverse

/-- One pass of `text.replace(/\s{2,}/g, ' ')`: every maximal run of two or
more whitespace characters collapses to a single `' '`; an isolated
whitespace character is kept as it is.  `fuel` bounds the number of emitted
characters; every step consumes at least one input character, so
`fuel = input length` (as passed by `removeExtraWhitespaces`) is enough. -/
def collapseWs : Nat → List Char → List Char
  | _, [] => []
  | 0, _ :: _ => []
  | fuel + 1, c :: rest =>
    if isWs c && (match rest with | [] => false | d :: _ => isWs d) then
      ' ' :: collapseWs fuel (rest.dropWhile isWs)
    else
      c :: collapseWs fuel rest

/-- `removeExtraWhitespaces` from `src/lib/text-processing.ts`:
`text.replace(/\s{2,}/g, ' ').trim()`. -/
def removeExtraWhitespaces (text : List Char) : List Char :=
  trim (collapseWs text.length text)

/-- `s.lastIndexOf(c, f)` restricted to a hit: the largest index `j ≤ f`
with `s[j] = c`, or `none` (JavaScript's `-1`). -/
def lastIndexOfWithin (s : List Char) (c : Char) (f : Nat) : Option Nat :=
  ((List.range s.length).filter (fun j => decide (j ≤ f) && decide (s[j]? = some c))).getLast?

/-- `s.indexOf(c, f)`: the smallest index `j ≥ f` with `s[j] = c`, or
`none` (JavaScript's `-1`). -/
def indexOfFrom (s : List Char) (c : Char) (f : Nat) : Option Nat :=
  ((List.range s.length).filter (fun j => decide (f ≤ j) && decide (s[j]? = some c))).head?

/-- The forward search of the chunking loop (the inner `else` branch of
`splitTextIntoChunks` / `chunkText`): look for the next period at or after
the candidate end `e0`; throw (`none`) if there is none or if its distance
from the chunk start `i` exceeds the policy threshold, otherwise end the
chunk just after it.  The threshold comparison `dist > limit2 / 2` is kept
exact by comparing `2 * dist > limit2`. -/
def chunkForward (s : List Char) (limit2 i e0 : Nat) : Option Nat :=
  match indexOfFrom s '.' e0 with
  | none => none
  | some p => if limit2 < 2 * (p - i) then none else some (p + 1)

/-- One iteration of the chunking loop of `splitTextIntoChunks` (and of the
generator `chunkText`), for current index `i < s.length`: compute the end
index of the next chunk, or `none` if the loop throws.  `limit2` is twice
the policy threshold: `3 * m` for the lenient `splitTextIntoChunks`
(`> m * 1.5`), `2 * m` for the strict `chunkText` (`> m`). -/
def chunkStep (s : List Char) (m limit2 i : Nat) : Option Nat :=
  if i + m < s.length then
    match lastIndexOfWithin s '.' (i + m) with
    | some p => if i < p then some (p + 1) else chunkForward s limit2 i (i + m)
    | none => chunkForward s limit2 i (i + m)
  else
    some (i + m)

/-- The chunking loop: starting from index `i`, repeatedly take the slice
`s[i..e)` given by `chunkStep`, trim it, and keep it when non-empty;
`none` models the `Error` thrown for an oversized sentence.  `fuel` bounds
the number of iterations; since every iteration strictly increases `i`
(see `chunkStep` progress below), `fuel = s.length` is enough from `i = 0`. -/
def chunkLoop (s : List Char) (m limit2 : Nat) : Nat → Nat → Option (List (List Char))
  | 0, _ => some []
  | fuel + 1, i =>
    if i < s.length then
      match chunkStep s m limit2 i with
      | none => none
      | some e =>
        match chunkLoop s m limit2 fuel e with
        | none => none
        | some rest =>
          some (if (trim ((s.drop i).take (e - i))).isEmpty then rest
                else trim ((s.drop i).take (e - i)) :: rest)
    else
      some []

/-- `splitTextIntoChunks(text, maxChunkSize)` from
`src/lib/text-processing.ts`: normalize whitespace, then chunk with the
lenient forward threshold `maxChunkSize * 1.5`.  `none` models the thrown
`Error('Sentence exceeds chunk size limit of ...')`. -/
def splitTextIntoChunks (text : List Char) (maxChunkSize : Nat) : Option (List (List Char)) :=
  chunkLoop (removeExtraWhitespaces text) maxChunkSize (3 * maxChunkSize)
    (removeExtraWhitespaces text).length 0

/-- `CHUNK_SIZE` from `src/types/index.ts`. -/
def CHUNK_SIZE : Nat := 4000

/-- The generator `chunkText(text)` from `src/lib/text-processing.ts`,
fully unfolded to the list of its yields: same loop as
`splitTextIntoChunks` but with the fixed `CHUNK_SIZE` and the strict
forward threshold `nextPeriodIndex - currentIndex > CHUNK_SIZE`. -/
def chunkText (text : List Char) : Option (List (List Char)) :=
  chunkLoop (removeExtraWhitespaces text) CHUNK_SIZE (2 * CHUNK_SIZE)
    (removeExtraWhitespaces text).length 0

/-- Result record of `validateTextForTTS`. -/
structure ValidationResult where
  valid : Bool
  error : Option String
deriving DecidableEq

/-- `validateTextForTTS(text)` from `src/lib/text-processing.ts`. -/
def validateTextForTTS (text : List Char) : ValidationResult :=
  if text = [] ∨ (trim text).length = 0 then
    { valid := false, error := some "Text cannot be empty" }
  else if 100000 < (removeExtraWhitespaces text).length then
    { valid := false, error := some "Text exceeds maximum length of 100,000 characters" }
  else
    { valid := true, error := none }

/-! ## Speech Request Client (`sendTextForTTS`, `src/hooks/useTTS.ts`) -/

/-- The outcome of the one network request issued by `sendTextForTTS`:
either the response's audio bytes, or an axios error carrying the optional
HTTP status (`error.response?.status`), or a non-axios exception. -/
inductive TTSOutcome where
  | success (data : List Nat)
  | axiosFailure (status : Option Nat)
  | otherFailure
deriving DecidableEq

/-- The user-facing message for a 401 response. -/
def invalidKeyMessage : String := "Invalid API key. Please check your OpenAI API key."

/-- The user-facing message for a 429 response. -/
def rateLimitMessage : String := "Rate limit exceeded. Please try again later."

/-- The user-facing message for a 500 response. -/
def serviceErrorMessage : String := "OpenAI service error. Please try again later."

/-- The default user-facing message for any other axios failure. -/
def genericFailureMessage : String := "Failed to generate speech."

/-- The user-facing message for a non-axios exception. -/
def unexpectedErrorMessage : String := "An unexpected error occurred while generating speech."

/-- The `if status === 401 / 429 / 500` chain in the catch block of
`sendTextForTTS`. -/
def classifyAxiosStatus (status : Option Nat) : String :=
  if status = some 401 then invalidKeyMessage
  else if status = some 429 then rateLimitMessage
  else if status = some 500 then serviceErrorMessage
  else genericFailureMessage

/-- `sendTextForTTS` as a function of its request outcome: on success the
audio buffer is returned and no toast is shown; on failure the function
returns `null` (never rethrows) after toasting the classified message.
The pair is `(returned buffer, toasted error message)`. -/
def sendTextForTTS (outcome : TTSOutcome) : Option (List Nat) × Option String :=
  match outcome with
  | .success data => (some data, none)
  | .axiosFailure status => (none, some (classifyAxiosStatus status))
  | .otherFailure => (none, some unexpectedErrorMessage)

/-! ## Audio Assembler (`mergeAudioBuffers`, `src/lib/audio-utils.ts`) -/

/-- A decoded Web Audio `AudioBuffer`: sample rate, channel count, frame
count, and per-channel sample data (samples abstracted as integers). -/
structure AudioBuffer where
  sampleRate : Nat
  numberOfChannels : Nat
  length : Nat
  channelData : List (List Int)
deriving DecidableEq

/-- The result of `mergeAudioBuffers`: a thrown error, the single-buffer
fast path (the raw bytes wrapped as-is into a blob), or, for two or more
buffers, the merged `AudioBuffer` that is subsequently MP3-encoded (the
lamejs encoding of the merged buffer is an external codec and is not
modelled). -/
inductive MergeResult where
  | thrown (msg : String)
  | singleBlob (buffer : List Nat)
  | mergedBuffer (buf : AudioBuffer)
deriving DecidableEq

/-- `mergeAudioBuffers(buffers)` from `src/lib/audio-utils.ts`, with the
external `audioContext.decodeAudioData` passed in as `decode`:
zero buffers throw; one buffer is returned as-is; otherwise all buffers are
decoded, a merged buffer is created with the FIRST decoded buffer's
`sampleRate` and `numberOfChannels` and the summed length, and every
decoded buffer's channel data is copied in at increasing offsets.  There is
no compatibility check between the decoded buffers. -/
def mergeAudioBuffers (decode : List Nat → AudioBuffer) (buffers : List (List Nat)) : MergeResult :=
  match buffers with
  | [] => .thrown "No audio buffers to merge"
  | [b] => .singleBlob b
  | b :: rest =>
    let decodedBuffers := (b :: rest).map decode
    let totalLength := (decodedBuffers.map (·.length)).sum
    let sampleRate := (decode b).sampleRate
    let numberOfChannels := (decode b).numberOfChannels
    .mergedBuffer
      { sampleRate := sampleRate
        numberOfChannels := numberOfChannels
        length := totalLength
        channelData :=
          (List.range numberOfChannels).map
            (fun ch => (decodedBuffers.map (fun d => d.channelData.getD ch [])).flatten) }

/-! ## Download progress reporting (`sendTextForTTS`'s `onDownloadProgress`,
the variant of `useTTS.ts` that reports per-chunk progress) -/

/-- `Math.round(num / den)` for non-negative operands: round to nearest,
halves toward positive infinity. -/
def mathRound (num den : Nat) : Nat := (2 * num + den) / (2 * den)

/-- The percentage reported when the response declares `progressEvent.total`:
`Math.round((loaded * 100) / total)`. -/
def downloadProgressKnown (loaded total : Nat) : Nat :=
  mathRound (loaded * 100) total

/-- The percentage reported when the total is unknown: the total is
estimated as `textLength * 50` bytes and the result is
`Math.min(95, Math.round((loaded * 100) / estimatedTotal))`. -/
def downloadProgressUnknown (loaded textLength : Nat) : Nat :=
  min 95 (mathRound (loaded * 100) (textLength * 50))

/-! ## Batch Orchestrator (`convertMultiple`, `src/hooks/useTTS.ts`) -/

/-- `AudioOutput['sourceType']` from `src/types/index.ts`. -/
inductive SourceType where
  | file | merged | text
deriving DecidableEq

/-- `AudioOutput['status']` from `src/types/index.ts`. -/
inductive JobStatus where
  | pending | processing | success | error
deriving DecidableEq

/-- `AudioOutput` from `src/types/index.ts`.  The source text is a
`List Char` (processed by the segmenter); `audioUrl` holds the bytes of the
blob behind the object URL. -/
structure AudioOutput where
  id : String
  name : String
  filename : String
  sourceType : SourceType
  text : List Char
  audioUrl : Option (List Nat)
  status : JobStatus
  error : Option String
deriving DecidableEq

/-- The error message for an empty-text job in `convertMultiple`. -/
def noTextMessage : String := "No text to convert"

/-- The message of the `Error` thrown by `splitTextIntoChunks` (for the
batch orchestrator's `maxChunkSize = 4000`). -/
def chunkLimitMessage (m : Nat) : String :=
  "Sentence exceeds chunk size limit of " ++ toString m ++
  " characters. Consider adding sentence breaks to your text."

/-- The message of the `Error` thrown when chunk `j` (0-based) yields no
audio: `Failed to generate audio for chunk ${j + 1}`. -/
def chunkFailMessage (j : Nat) : String :=
  "Failed to generate audio for chunk " ++ toString (j + 1)

/-- The inner chunk-request loop of `convertMultiple` for one job:
request each chunk in order through the network oracle `netJ`
(`netJ j = none` means `sendTextForTTS` returned `null` for chunk `j`);
stop at the first failure (`.error j` models the thrown
`Failed to generate audio for chunk ${j+1}`), otherwise collect the audio
buffers in chunk order. -/
def fetchBuffers (netJ : Nat → Option (List Nat)) :
    List (List Char) → Nat → Except Nat (List (List Nat))
  | [], _ => .ok []
  | _ :: rest, j =>
    match netJ j with
    | none => .error j
    | some buf =>
      match fetchBuffers netJ rest (j + 1) with
      | .error k => .error k
      | .ok bufs => .ok (buf :: bufs)

/-- The body of `convertMultiple`'s per-job iteration, producing the final
state of the job slot (the transient `processing` status is overwritten
before the iteration ends and is not part of the final state): empty or
whitespace-only text errors immediately without touching the network;
otherwise the text is normalized and chunked (a chunking throw errors the
job), every chunk is requested sequentially (a failed chunk errors the
job), and on full success the buffers are merged (`mergeB` abstracts
`mergeBuffers`) and stored as the job's artifact. -/
def processItem (netJ : Nat → Option (List Nat)) (mergeB : List (List Nat) → List Nat)
    (output : AudioOutput) : AudioOutput :=
  if output.text = [] ∨ trim output.text = [] then
    { output with status := .error, error := some noTextMessage }
  else
    match splitTextIntoChunks (removeExtraWhitespaces output.text) CHUNK_SIZE with
    | none => { output with status := .error, error := some (chunkLimitMessage CHUNK_SIZE) }
    | some chunks =>
      match fetchBuffers netJ chunks 0 with
      | .error j => { output with status := .error, error := some (chunkFailMessage j) }
      | .ok audioBuffers =>
        { output with status := .success, audioUrl := some (mergeB audioBuffers) }

/-- The `for (let i = 0; ...)` loop of `convertMultiple`: process job slot
`i` of the `updatedOutputs` array, write the result back into the array,
and continue; `completedItems` counts terminally successful jobs (used by
the progress callbacks).  `fuel` bounds the iteration count; the index
grows by one per iteration, so `fuel = outputs.length` is enough. -/
def convertLoop (net : Nat → Nat → Option (List Nat)) (mergeB : List (List Nat) → List Nat) :
    Nat → List AudioOutput → Nat → Nat → List AudioOutput × Nat
  | 0, updatedOutputs, _, completedItems => (updatedOutputs, completedItems)
  | fuel + 1, updatedOutputs, i, completedItems =>
    match updatedOutputs[i]? with
    | some output =>
      convertLoop net mergeB fuel
        (updatedOutputs.set i (processItem (net i) mergeB output)) (i + 1)
        (if (processItem (net i) mergeB output).status = .success then
          completedItems + 1
        else completedItems)
    | none => (updatedOutputs, completedItems)

/-- `convertMultiple(outputs, onProgress)` from `src/hooks/useTTS.ts`, as a
function of the api key, the per-job/per-chunk network oracle `net`, and
the abstract merge `mergeB`: a missing api key returns the inputs unchanged
(and no success count is reported, modelled by `none`); otherwise every job
is processed sequentially and the reported success count is the number of
jobs whose final status is `success`. -/
def convertMultiple (apiKey : String) (net : Nat → Nat → Option (List Nat))
    (mergeB : List (List Nat) → List Nat) (outputs : List AudioOutput) :
    List AudioOutput × Option Nat :=
  if apiKey = "" then (outputs, none)
  else
    ((convertLoop net mergeB outputs.length outputs 0 0).1,
      some (((convertLoop net mergeB outputs.length outputs 0 0).1.filter
        (fun o => o.status == .success)).length))

/-! ## Basic lemmas about whitespace handling -/

/-- The non-whitespace content of a string, in order. -/
def nonWs (s : List Char) : List Char := s.filter (fun c => !isWs c)

theorem nonWs_dropWhile (l : List Char) : nonWs (l.dropWhile isWs) = nonWs l := by
  induction l with
  | nil => rfl
  | cons c r ih =>
    by_cases h : isWs c
    · simpa [nonWs, List.dropWhile_cons, h, List.filter_cons] using ih
    · simp [nonWs, List.dropWhile_cons, h, List.filter_cons]

theorem nonWs_reverse (l : List Char) : nonWs l.reverse = (nonWs l).reverse := by
  simp [nonWs, List.filter_reverse]

theorem nonWs_trim (l : List Char) : nonWs (trim l) = nonWs l := by
  simp [trim, nonWs_reverse, nonWs_dropWhile]

theorem nonWs_eq_nil_of_trim (l : List Char) (h : trim l = []) : nonWs l = [] := by
  rw [← nonWs_trim, h]; rfl

theorem nonWs_append (a b : List Char) : nonWs (a ++ b) = nonWs a ++ nonWs b := by
  simp [nonWs, List.filter_append]

theorem dropWhile_length_le (p : Char → Bool) (l : List Char) :
    (l.dropWhile p).length ≤ l.length :=
  (List.dropWhile_sublist p (l := l)).length_le

theorem trim_length_le (l : List Char) : (trim l).length ≤ l.length := by
  have h1 := dropWhile_length_le isWs l
  have h2 := dropWhile_length_le isWs (l.dropWhile isWs).reverse
  simp only [trim, List.length_reverse] at *
  omega

/-! ## Lemmas about the index searches -/

theorem lastIndexOfWithin_eq_some {s : List Char} {c : Char} {f p : Nat}
    (h : lastIndexOfWithin s c f = some p) : p ≤ f ∧ s[p]? = some c := by
  have h' : ((List.range s.length).filter
      (fun j => decide (j ≤ f) && decide (s[j]? = some c))).getLast? = some p := h
  have hm := List.mem_of_mem_getLast? (l := (List.range s.length).filter
      (fun j => decide (j ≤ f) && decide (s[j]? = some c))) (a := p) (by rw [h']; rfl)
  rcases List.mem_filter.1 hm with ⟨-, hp⟩
  simp only [Bool.and_eq_true, decide_eq_true_eq] at hp
  exact hp

theorem lastIndexOfWithin_eq_none {s : List Char} {c : Char} {f : Nat}
    (h : ∀ j, j ≤ f → s[j]? ≠ some c) : lastIndexOfWithin s c f = none := by
  unfold lastIndexOfWithin
  have : (List.range s.length).filter
      (fun j => decide (j ≤ f) && decide (s[j]? = some c)) = [] := by
    rw [List.filter_eq_nil_iff]
    intro j _
    simp only [Bool.and_eq_true, decide_eq_true_eq, not_and]
    intro hj
    exact h j hj
  rw [this]; rfl

theorem indexOfFrom_eq_some {s : List Char} {c : Char} {f p : Nat}
    (h : indexOfFrom s c f = some p) : f ≤ p ∧ s[p]? = some c := by
  have h' : ((List.range s.length).filter
      (fun j => decide (f ≤ j) && decide (s[j]? = some c))).head? = some p := h
  have hm := List.mem_of_mem_head? (l := (List.range s.length).filter
      (fun j => decide (f ≤ j) && decide (s[j]? = some c))) (a := p) (by rw [h']; rfl)
  rcases List.mem_filter.1 hm with ⟨-, hp⟩
  simp only [Bool.and_eq_true, decide_eq_true_eq] at hp
  exact hp

/-! ## Progress and bound for one chunking iteration -/

theorem chunkForward_some {s : List Char} {limit2 i e0 e : Nat}
    (h : chunkForward s limit2 i e0 = some e) :
    ∃ p, e = p + 1 ∧ e0 ≤ p ∧ 2 * (p - i) ≤ limit2 := by
  unfold chunkForward at h
  split at h
  · exact Option.noConfusion h
  · rename_i p heq
    split at h
    · exact Option.noConfusion h
    · rename_i hc
      injection h with h
      exact ⟨p, h.symm, (indexOfFrom_eq_some heq).1, by omega⟩

theorem chunkStep_some {s : List Char} {m limit2 i e : Nat} (hi : i < s.length)
    (h : chunkStep s m limit2 i = some e) :
    i < e ∧ 2 * (e - i) ≤ max (2 * m + 2) (limit2 + 2) := by
  unfold chunkStep at h
  split at h
  · rename_i he0
    split at h
    · rename_i p heq
      split at h
      · rename_i hip
        injection h with h
        subst h
        have hpf := (lastIndexOfWithin_eq_some heq).1
        exact ⟨by omega, le_trans (by omega) (le_max_left _ _)⟩
      · rename_i hip
        rcases chunkForward_some h with ⟨p2, rfl, hp2, hc⟩
        exact ⟨by omega, le_trans (by omega) (le_max_right _ _)⟩
    · rcases chunkForward_some h with ⟨p2, rfl, hp2, hc⟩
      exact ⟨by omega, le_trans (by omega) (le_max_right _ _)⟩
  · rename_i he0
    injection h with h
    subst h
    exact ⟨by omega, le_trans (by omega) (le_max_left _ _)⟩

/-! ## Lemmas about the chunking loop -/

theorem chunkLoop_stop {s : List Char} {m l2 : Nat} (fuel i : Nat) (h : s.length ≤ i) :
    chunkLoop s m l2 fuel i = some [] := by
  cases fuel with
  | zero => rfl
  | succ f => simp only [chunkLoop]; rw [if_neg (by omega)]

theorem chunkLoop_succ_unfold (s : List Char) (m l2 fuel i : Nat) (hi : i < s.length) :
    chunkLoop s m l2 (fuel + 1) i =
      match chunkStep s m l2 i with
      | none => none
      | some e =>
        match chunkLoop s m l2 fuel e with
        | none => none
        | some rest =>
          some (if (trim ((s.drop i).take (e - i))).isEmpty then rest
                else trim ((s.drop i).take (e - i)) :: rest) := by
  simp only [chunkLoop]
  rw [if_pos hi]

theorem chunkLoop_mem_bound {s : List Char} {m l2 : Nat} :
    ∀ (fuel i : Nat) (chunks : List (List Char)) (c : List Char),
      chunkLoop s m l2 fuel i = some chunks → c ∈ chunks →
      2 * c.length ≤ max (2 * m + 2) (l2 + 2) := by
  intro fuel
  induction fuel with
  | zero =>
    intro i chunks c h hc
    injection h with h
    subst h
    cases hc
  | succ f ih =>
    intro i chunks c h hc
    by_cases hi : i < s.length
    · rw [chunkLoop_succ_unfold s m l2 f i hi] at h
      split at h
      · exact Option.noConfusion h
      · rename_i e hstep
        split at h
        · exact Option.noConfusion h
        · rename_i rest hrest
          injection h with h
          subst h
          have hbound : 2 * (trim ((s.drop i).take (e - i))).length ≤
              max (2 * m + 2) (l2 + 2) := by
            have h1 := trim_length_le ((s.drop i).take (e - i))
            have h2 : ((s.drop i).take (e - i)).length ≤ e - i := by
              rw [List.length_take]
              exact min_le_left _ _
            have h3 := (chunkStep_some hi hstep).2
            omega
          by_cases hemp : (trim ((s.drop i).take (e - i))).isEmpty
          · rw [if_pos hemp] at hc
            exact ih e rest c hrest hc
          · rw [if_neg hemp] at hc
            rcases List.mem_cons.1 hc with rfl | hc'
            · exact hbound
            · exact ih e rest c hrest hc'
    · rw [chunkLoop_stop _ _ (by omega)] at h
      injection h with h
      subst h
      cases hc

theorem chunkLoop_flatten_nonWs {s : List Char} {m l2 : Nat} :
    ∀ (fuel i : Nat) (chunks : List (List Char)), s.length - i ≤ fuel →
      chunkLoop s m l2 fuel i = some chunks →
      nonWs chunks.flatten = nonWs (s.drop i) := by
  intro fuel
  induction fuel with
  | zero =>
    intro i chunks hf h
    injection h with h
    subst h
    rw [List.drop_eq_nil_of_le (by omega)]
    rfl
  | succ f ih =>
    intro i chunks hf h
    by_cases hi : i < s.length
    · rw [chunkLoop_succ_unfold s m l2 f i hi] at h
      split at h
      · exact Option.noConfusion h
      · rename_i e hstep
        split at h
        · exact Option.noConfusion h
        · rename_i rest hrest
          injection h with h
          subst h
          have hie : i < e := (chunkStep_some hi hstep).1
          have hrec : nonWs rest.flatten = nonWs (s.drop e) :=
            ih e rest (by omega) hrest
          have hsplit : s.drop i = (s.drop i).take (e - i) ++ s.drop e := by
            conv_lhs => rw [← List.take_append_drop (e - i) (s.drop i)]
            rw [List.drop_drop, Nat.add_sub_cancel' (le_of_lt hie)]
          by_cases hemp : (trim ((s.drop i).take (e - i))).isEmpty
          · rw [if_pos hemp]
            have hnil : nonWs ((s.drop i).take (e - i)) = [] := by
              rw [← nonWs_trim, List.isEmpty_iff.1 hemp]
              rfl
            rw [hrec]
            conv_rhs => rw [hsplit]
            rw [nonWs_append, hnil, List.nil_append]
          · rw [if_neg hemp]
            rw [List.flatten_cons, nonWs_append, nonWs_trim, hrec]
            conv_rhs => rw [hsplit, nonWs_append]
    · rw [chunkLoop_stop _ _ (by omega)] at h
      injection h with h
      subst h
      rw [List.drop_eq_nil_of_le (by omega)]
      rfl

theorem chunkLoop_fuel_irrel {s : List Char} {m l2 : Nat} :
    ∀ (f1 f2 i : Nat), s.length - i ≤ f1 → s.length - i ≤ f2 →
      chunkLoop s m l2 f1 i = chunkLoop s m l2 f2 i := by
  intro f1
  induction f1 with
  | zero =>
    intro f2 i h1 h2
    rw [chunkLoop_stop 0 i (by omega), chunkLoop_stop f2 i (by omega)]
  | succ f ih =>
    intro f2 i h1 h2
    by_cases hi : i < s.length
    · obtain ⟨k, rfl⟩ : ∃ k, f2 = k + 1 := ⟨f2 - 1, by omega⟩
      rw [chunkLoop_succ_unfold s m l2 f i hi, chunkLoop_succ_unfold s m l2 k i hi]
      cases hstep : chunkStep s m l2 i with
      | none => rfl
      | some e =>
        have hie : i < e := (chunkStep_some hi hstep).1
        have heq := ih k e (by omega) (by omega)
        simp only [heq]
    · rw [chunkLoop_stop _ _ (by omega), chunkLoop_stop _ _ (by omega)]

/-! ## Lemmas about the batch orchestrator -/

theorem append_ne_empty_left (s t : String) (h : s.length ≠ 0) : s ++ t ≠ "" := by
  intro he
  have hl := congrArg String.length he
  rw [String.length_append] at hl
  have h0 : ("" : String).length = 0 := by decide
  omega

theorem chunkFailMessage_ne_empty (j : Nat) : chunkFailMessage j ≠ "" :=
  append_ne_empty_left _ _ (by decide)

theorem chunkLimitMessage_ne_empty (m : Nat) : chunkLimitMessage m ≠ "" := by
  unfold chunkLimitMessage
  intro he
  have hl := congrArg String.length he
  rw [String.length_append, String.length_append] at hl
  have h0 : ("" : String).length = 0 := by decide
  have h1 : ("Sentence exceeds chunk size limit of " : String).length = 37 := by decide
  omega

theorem fetchBuffers_error {netJ : Nat → Option (List Nat)} :
    ∀ (chunks : List (List Char)) (j0 : Nat),
      (∃ d, d < chunks.length ∧ netJ (j0 + d) = none) →
      ∃ k, fetchBuffers netJ chunks j0 = .error k := by
  intro chunks
  induction chunks with
  | nil =>
    rintro j0 ⟨d, hd, -⟩
    exact absurd hd (by simp)
  | cons c rest ih =>
    rintro j0 ⟨d, hd, hnet⟩
    cases hn : netJ j0 with
    | none => exact ⟨j0, by simp [fetchBuffers, hn]⟩
    | some buf =>
      obtain ⟨d', rfl⟩ : ∃ d', d = d' + 1 := by
        refine ⟨d - 1, ?_⟩
        rcases Nat.eq_zero_or_pos d with rfl | hdpos
        · rw [Nat.add_zero] at hnet
          rw [hnet] at hn
          exact Option.noConfusion hn
        · omega
      have hnet' : netJ ((j0 + 1) + d') = none := by
        rw [show (j0 + 1) + d' = j0 + (d' + 1) by omega]
        exact hnet
      rcases ih (j0 + 1) ⟨d', by simpa using hd, hnet'⟩ with ⟨k, hk⟩
      refine ⟨k, ?_⟩
      simp [fetchBuffers, hn, hk]

/-- A job whose (nonempty) text either fails to chunk or has a failing
chunk request ends in `error` with a non-empty message that leaves the
other fields of the job record untouched. -/
theorem processItem_error_of_fail (netJ : Nat → Option (List Nat))
    (mergeB : List (List Nat) → List Nat) (o : AudioOutput)
    (htext : trim o.text ≠ [])
    (hfail : splitTextIntoChunks (removeExtraWhitespaces o.text) CHUNK_SIZE = none ∨
      ∃ chunks j, splitTextIntoChunks (removeExtraWhitespaces o.text) CHUNK_SIZE = some chunks ∧
        j < chunks.length ∧ netJ j = none) :
    ∃ msg, processItem netJ mergeB o = { o with status := .error, error := some msg } ∧
      msg ≠ "" := by
  have hcond : ¬(o.text = [] ∨ trim o.text = []) := by
    rintro (h | h)
    · exact htext (by rw [h]; rfl)
    · exact htext h
  rcases hfail with hnone | ⟨chunks, j, hchunks, hj, hnet⟩
  · refine ⟨chunkLimitMessage CHUNK_SIZE, ?_, chunkLimitMessage_ne_empty _⟩
    simp only [processItem, hnone]
    rw [if_neg hcond]
  · have hferr : ∃ k, fetchBuffers netJ chunks 0 = .error k :=
      fetchBuffers_error chunks 0 ⟨j, hj, by rwa [Nat.zero_add]⟩
    rcases hferr with ⟨k, hk⟩
    refine ⟨chunkFailMessage k, ?_, chunkFailMessage_ne_empty _⟩
    simp only [processItem, hchunks, hk]
    rw [if_neg hcond]

/-- The batch loop writes `processItem` of the original slot value into
every slot at or after the current index and leaves earlier slots alone;
the array length never changes. -/
theorem convertLoop_spec (net : Nat → Nat → Option (List Nat))
    (mergeB : List (List Nat) → List Nat) :
    ∀ (fuel : Nat) (us : List AudioOutput) (i ci : Nat), us.length ≤ i + fuel →
      (convertLoop net mergeB fuel us i ci).1.length = us.length ∧
      ∀ k, (convertLoop net mergeB fuel us i ci).1[k]? =
        if k < i then us[k]? else Option.map (processItem (net k) mergeB) us[k]? := by
  intro fuel
  induction fuel with
  | zero =>
    intro us i ci hle
    constructor
    · simp only [convertLoop]
    · intro k
      simp only [convertLoop]
      by_cases hk : k < i
      · rw [if_pos hk]
      · rw [if_neg hk, List.getElem?_eq_none (show us.length ≤ k by omega)]
        rfl
  | succ f ih =>
    intro us i ci hle
    cases ho : us[i]? with
    | none =>
      have hlen : us.length ≤ i := by
        by_contra hlt
        push_neg at hlt
        rw [List.getElem?_eq_getElem hlt] at ho
        exact Option.noConfusion ho
      constructor
      · simp only [convertLoop, ho]
      · intro k
        simp only [convertLoop, ho]
        by_cases hk : k < i
        · rw [if_pos hk]
        · rw [if_neg hk, List.getElem?_eq_none (show us.length ≤ k by omega)]
          rfl
    | some o =>
      have hilen : i < us.length := by
        rcases List.getElem?_eq_some.1 ho with ⟨h, -⟩
        exact h
      have hset : (us.set i (processItem (net i) mergeB o)).length = us.length :=
        List.length_set us i _
      rcases ih (us.set i (processItem (net i) mergeB o)) (i + 1)
          (if (processItem (net i) mergeB o).status = .success then ci + 1 else ci)
          (by rw [hset]; omega) with ⟨hL, hG⟩
      constructor
      · simp only [convertLoop, ho]
        rw [hL, hset]
      · intro k
        simp only [convertLoop, ho]
        rw [hG k]
        by_cases hk1 : k < i
        · rw [if_pos (show k < i + 1 by omega), if_pos hk1,
            List.getElem?_set_ne (show i ≠ k by omega)]
        · by_cases hk2 : k = i
          · subst hk2
            rw [if_pos (show k < k + 1 by omega), if_neg hk1,
              List.getElem?_set_self (by omega), ho]
            rfl
          · rw [if_neg (show ¬k < i + 1 by omega), if_neg hk1,
              List.getElem?_set_ne (show i ≠ k by omega)]

/-! ## Whitespace-free strings pass through normalization unchanged -/

theorem collapseWs_eq_self {l : List Char} :
    ∀ fuel, l.length ≤ fuel → (∀ c ∈ l, isWs c = false) → collapseWs fuel l = l := by
  induction l with
  | nil => intro fuel _ _; cases fuel <;> rfl
  | cons c rest ih =>
    intro fuel hfuel hnw
    obtain ⟨f, rfl⟩ : ∃ f, fuel = f + 1 := ⟨fuel - 1, by simp at hfuel; omega⟩
    simp only [collapseWs]
    rw [if_neg]
    · rw [ih f (by simp at hfuel; omega) (fun d hd => hnw d (List.mem_cons_of_mem c hd))]
    · rw [hnw c (List.mem_cons_self c rest)]
      simp

theorem trim_eq_self {l : List Char} (hnw : ∀ c ∈ l, isWs c = false) : trim l = l := by
  unfold trim
  have h1 : l.dropWhile isWs = l := by
    cases l with
    | nil => rfl
    | cons c r => rw [List.dropWhile_cons, hnw c (List.mem_cons_self c r)]; rfl
  rw [h1]
  have h2 : l.reverse.dropWhile isWs = l.reverse := by
    cases hr : l.reverse with
    | nil => rfl
    | cons c r =>
      rw [List.dropWhile_cons, hnw c ?_]
      · rfl
      · have : c ∈ l.reverse := by rw [hr]; exact List.mem_cons_self c r
        exact List.mem_reverse.1 this
  rw [h2, List.reverse_reverse]

theorem removeExtraWhitespaces_eq_self {l : List Char}
    (hnw : ∀ c ∈ l, isWs c = false) : removeExtraWhitespaces l = l := by
  unfold removeExtraWhitespaces
  rw [collapseWs_eq_self l.length le_rfl hnw, trim_eq_self hnw]

/-! ## Joining chunks with single spaces -/

/-- Join a list of chunks with a single space between consecutive chunks
(the spec's "trimmed, space-joined" recombination). -/
def joinSp : List (List Char) → List Char
  | [] => []
  | [c] => c
  | c :: rest => c ++ ' ' :: joinSp rest

theorem nonWs_joinSp (l : List (List Char)) : nonWs (joinSp l) = nonWs l.flatten := by
  induction l with
  | nil => rfl
  | cons c rest ih =>
    cases rest with
    | nil => simp [joinSp]
    | cons d rest' =>
      show nonWs (c ++ ' ' :: joinSp (d :: rest')) = nonWs ((c :: d :: rest').flatten)
      rw [List.flatten_cons, nonWs_append, nonWs_append, ← ih]
      rfl

theorem nonWs_flatten_map_trim (l : List (List Char)) :
    nonWs ((l.map trim).flatten) = nonWs l.flatten := by
  induction l with
  | nil => rfl
  | cons c rest ih =>
    rw [List.map_cons, List.flatten_cons, List.flatten_cons, nonWs_append, nonWs_append,
      nonWs_trim, ih]

/-! ## Rounding characterization for download progress -/

theorem mathRound_char (num den : Nat) (hden : 0 < den) :
    den * (2 * mathRound num den) ≤ 2 * num + den ∧
      2 * num + den < den * (2 * mathRound num den) + 2 * den := by
  unfold mathRound
  have hmod := Nat.div_add_mod (2 * num + den) (2 * den)
  have hlt : (2 * num + den) % (2 * den) < 2 * den := Nat.mod_lt _ (by omega)
  have hcomm : den * (2 * ((2 * num + den) / (2 * den))) =
      2 * den * ((2 * num + den) / (2 * den)) := by ring
  omega

/-! ## Claim theorems -/

/-- C1 (counterexample): the 1.5×`maxChunkSize` bound fails as stated.  For
`text = "a.b"` and `maxChunkSize = 1` the call returns normally, but the
first chunk `"a."` has length `2 > 1.5 × 1` (stated exactly as
`3 * maxChunkSize < 2 * length`). -/
theorem splitTextIntoChunks_three_halves_cex :
    splitTextIntoChunks "a.b".toList 1 = some [['a', '.'], ['b']] ∧
      3 * 1 < 2 * (['a', '.'] : List Char).length := by decide

/-- C1 (amended): for every `maxChunkSize ≥ 1`, every chunk returned by
`splitTextIntoChunks` has length at most `⌊1.5 × maxChunkSize⌋ + 1` (a
period-terminated chunk ends one character past the period the policy
threshold applies to), stated exactly as `2 * length ≤ 3 * maxChunkSize + 2`. -/
theorem splitTextIntoChunks_chunk_bound (text : List Char) (m : Nat) (hm : 1 ≤ m)
    (chunks : List (List Char)) (c : List Char)
    (h : splitTextIntoChunks text m = some chunks) (hc : c ∈ chunks) :
    2 * c.length ≤ 3 * m + 2 := by
  unfold splitTextIntoChunks at h
  have hb := chunkLoop_mem_bound _ _ chunks c h hc
  have hmax : max (2 * m + 2) (3 * m + 2) = 3 * m + 2 := max_eq_right (by omega)
  omega

/-- Witness for the amended C1 at `text = "ab.cd"`, `maxChunkSize = 3`. -/
theorem splitTextIntoChunks_chunk_bound_witness :
    1 ≤ 3 ∧ splitTextIntoChunks "ab.cd".toList 3 = some [['a', 'b', '.'], ['c', 'd']] ∧
      ['a', 'b', '.'] ∈ [(['a', 'b', '.'] : List Char), ['c', 'd']] ∧
      2 * (['a', 'b', '.'] : List Char).length ≤ 3 * 3 + 2 :=
  ⟨by decide, by decide, by decide,
    splitTextIntoChunks_chunk_bound "ab.cd".toList 3 (by decide)
      [['a', 'b', '.'], ['c', 'd']] ['a', 'b', '.'] (by decide) (by decide)⟩

/-- C5 (counterexample): `mergeAudioBuffers` performs no sample-rate check.
With two fragments decoding to sample rates 44100 and 22050 it still
produces a merged artifact (carrying the first fragment's rate) instead of
failing. -/
def mismatchedDecode (b : List Nat) : AudioBuffer :=
  { sampleRate := if b = [0] then 44100 else 22050
    numberOfChannels := 1
    length := 1
    channelData := [[1]] }

/-- C5 (counterexample): at a concrete two-fragment input whose decoded
sample rates differ, `mergeAudioBuffers` does not fail: it produces the
merged artifact, using the first fragment's sample rate. -/
theorem mergeAudioBuffers_no_rate_check_cex :
    (mismatchedDecode [0]).sampleRate ≠ (mismatchedDecode [1]).sampleRate ∧
      mergeAudioBuffers mismatchedDecode [[0], [1]] =
        .mergedBuffer
          { sampleRate := 44100, numberOfChannels := 1, length := 2,
            channelData := [[1, 1]] } := by decide

/-- C5 (amended): with two or more fragments, `mergeAudioBuffers` never
raises an incompatibility error: it always produces a merged artifact whose
sample rate and channel count are those of the FIRST decoded fragment,
regardless of the other fragments' formats. -/
theorem mergeAudioBuffers_uses_first_rate (decode : List Nat → AudioBuffer)
    (b1 b2 : List Nat) (rest : List (List Nat)) :
    ∃ buf, mergeAudioBuffers decode (b1 :: b2 :: rest) = .mergedBuffer buf ∧
      buf.sampleRate = (decode b1).sampleRate ∧
      buf.numberOfChannels = (decode b1).numberOfChannels ∧
      ∀ msg, mergeAudioBuffers decode (b1 :: b2 :: rest) ≠ .thrown msg := by
  refine ⟨_, rfl, rfl, rfl, fun msg h => ?_⟩
  exact MergeResult.noConfusion h

/-- C6: on any failed request `sendTextForTTS` returns no fragment (`none`)
to its caller, and toasts exactly the status-classified message: 401 ↔ the
invalid-credential message, 429 ↔ the rate-limited message, 500 ↔ the
upstream-service-error message, any other axios failure ↔ the generic
transport-failure message; the four messages are pairwise distinct. -/
theorem sendTextForTTS_failure_classification (st : Option Nat) :
    (sendTextForTTS (.axiosFailure st)).1 = none ∧
    (sendTextForTTS .otherFailure).1 = none ∧
    ((sendTextForTTS (.axiosFailure st)).2 = some invalidKeyMessage ↔ st = some 401) ∧
    ((sendTextForTTS (.axiosFailure st)).2 = some rateLimitMessage ↔ st = some 429) ∧
    ((sendTextForTTS (.axiosFailure st)).2 = some serviceErrorMessage ↔ st = some 500) ∧
    ((sendTextForTTS (.axiosFailure st)).2 = some genericFailureMessage ↔
      (st ≠ some 401 ∧ st ≠ some 429 ∧ st ≠ some 500)) ∧
    List.Pairwise (fun a b => a ≠ b)
      [invalidKeyMessage, rateLimitMessage, serviceErrorMessage, genericFailureMessage] := by
  have d12 : invalidKeyMessage ≠ rateLimitMessage := by decide
  have d13 : invalidKeyMessage ≠ serviceErrorMessage := by decide
  have d14 : invalidKeyMessage ≠ genericFailureMessage := by decide
  have d23 : rateLimitMessage ≠ serviceErrorMessage := by decide
  have d24 : rateLimitMessage ≠ genericFailureMessage := by decide
  have d34 : serviceErrorMessage ≠ genericFailureMessage := by decide
  refine ⟨rfl, rfl, ?_, ?_, ?_, ?_, ?_⟩
  · show some (classifyAxiosStatus st) = some invalidKeyMessage ↔ st = some 401
    unfold classifyAxiosStatus
    by_cases h1 : st = some 401
    · rw [if_pos h1]
      exact iff_of_true rfl h1
    · rw [if_neg h1]
      refine iff_of_false (fun h => ?_) h1
      split at h <;> rename_i hx
      · exact d12 (Option.some.inj h).symm
      · split at h <;> rename_i hy
        · exact d13 (Option.some.inj h).symm
        · exact d14 (Option.some.inj h).symm
  · show some (classifyAxiosStatus st) = some rateLimitMessage ↔ st = some 429
    unfold classifyAxiosStatus
    by_cases h1 : st = some 401
    · rw [if_pos h1]
      refine iff_of_false (fun h => d12 (Option.some.inj h)) (fun h => ?_)
      rw [h1] at h
      exact absurd (Option.some.inj h) (by decide)
    · rw [if_neg h1]
      by_cases h2 : st = some 429
      · rw [if_pos h2]
        exact iff_of_true rfl h2
      · rw [if_neg h2]
        refine iff_of_false (fun h => ?_) h2
        split at h
        · exact d23 (Option.some.inj h).symm
        · exact d24 (Option.some.inj h).symm
  · show some (classifyAxiosStatus st) = some serviceErrorMessage ↔ st = some 500
    unfold classifyAxiosStatus
    by_cases h1 : st = some 401
    · rw [if_pos h1]
      refine iff_of_false (fun h => d13 (Option.some.inj h)) (fun h => ?_)
      rw [h1] at h
      exact absurd (Option.some.inj h) (by decide)
    · rw [if_neg h1]
      by_cases h2 : st = some 429
      · rw [if_pos h2]
        refine iff_of_false (fun h => d23 (Option.some.inj h)) (fun h => ?_)
        rw [h2] at h
        exact absurd (Option.some.inj h) (by decide)
      · rw [if_neg h2]
        by_cases h3 : st = some 500
        · rw [if_pos h3]
          exact iff_of_true rfl h3
        · rw [if_neg h3]
          exact iff_of_false (fun h => d34 (Option.some.inj h).symm) h3
  · show some (classifyAxiosStatus st) = some genericFailureMessage ↔
      (st ≠ some 401 ∧ st ≠ some 429 ∧ st ≠ some 500)
    unfold classifyAxiosStatus
    by_cases h1 : st = some 401
    · rw [if_pos h1]
      exact iff_of_false (fun h => d14 (Option.some.inj h)) (fun ⟨h, _, _⟩ => h h1)
    · rw [if_neg h1]
      by_cases h2 : st = some 429
      · rw [if_pos h2]
        exact iff_of_false (fun h => d24 (Option.some.inj h)) (fun ⟨_, h, _⟩ => h h2)
      · rw [if_neg h2]
        by_cases h3 : st = some 500
        · rw [if_pos h3]
          exact iff_of_false (fun h => d34 (Option.some.inj h)) (fun ⟨_, _, h⟩ => h h3)
        · rw [if_neg h3]
          exact iff_of_true rfl ⟨h1, h2, h3⟩
  · simp [List.pairwise_cons, d12, d13, d14, d23, d24, d34]

/-- C7 (counterexample): the percentage reported for a known total is NOT
`floor(bytesReceived / totalBytes × 100)`: at `loaded = 2`, `total = 3`
the code (`Math.round`) reports 67 while the floor formula gives 66. -/
theorem downloadProgress_round_not_floor_cex :
    downloadProgressKnown 2 3 = 67 ∧ (2 * 100) / 3 = 66 ∧
      downloadProgressKnown 2 3 ≠ (2 * 100) / 3 := by decide

/-- C7 (amended): with a declared total, the reported percentage is
`round(bytesReceived / totalBytes × 100)` (nearest integer, halves up),
characterized exactly by `2·total·p ≤ 2·loaded·100 + total < 2·total·(p+1)`;
with an unknown total, the total is estimated as `textLength × 50` bytes and
the reported percentage is `min(95, round(loaded·100 / (textLength·50)))`,
pinned down completely by three facts that admit exactly that one value:
the report never exceeds 95, the round-lower-bound over the
`textLength × 50` estimate always holds (so at the cap the true rounded
estimate is at least 95), and away from the cap the round-upper-bound holds
as well (so below 95 the report IS the rounded estimate). -/
theorem downloadProgress_amended (loaded total textLength : Nat)
    (htotal : 0 < total) (htext : 0 < textLength) :
    (total * (2 * downloadProgressKnown loaded total) ≤ 2 * (loaded * 100) + total ∧
      2 * (loaded * 100) + total <
        total * (2 * downloadProgressKnown loaded total) + 2 * total) ∧
    downloadProgressUnknown loaded textLength ≤ 95 ∧
    textLength * 50 * (2 * downloadProgressUnknown loaded textLength) ≤
      2 * (loaded * 100) + textLength * 50 ∧
    (2 * (loaded * 100) + textLength * 50 <
        textLength * 50 * (2 * downloadProgressUnknown loaded textLength) +
          2 * (textLength * 50) ∨
      downloadProgressUnknown loaded textLength = 95) := by
  have hchar := mathRound_char (loaded * 100) (textLength * 50) (by omega)
  refine ⟨mathRound_char _ _ htotal, min_le_left _ _, ?_, ?_⟩
  · unfold downloadProgressUnknown
    rcases le_or_lt (mathRound (loaded * 100) (textLength * 50)) 95 with h | h
    · rw [min_eq_right h]
      exact hchar.1
    · rw [min_eq_left (by omega)]
      have hmono : textLength * 50 * (2 * 95) ≤
          textLength * 50 * (2 * mathRound (loaded * 100) (textLength * 50)) :=
        Nat.mul_le_mul_left _ (by omega)
      omega
  · unfold downloadProgressUnknown
    rcases le_or_lt (mathRound (loaded * 100) (textLength * 50)) 95 with h | h
    · left
      rw [min_eq_right h]
      exact hchar.2
    · right
      rw [min_eq_left (by omega)]

/-- Witness for the amended C7 at `loaded = 2`, `total = 3`,
`textLength = 1`. -/
theorem downloadProgress_amended_witness :
    (3 * (2 * downloadProgressKnown 2 3) ≤ 2 * (2 * 100) + 3 ∧
      2 * (2 * 100) + 3 < 3 * (2 * downloadProgressKnown 2 3) + 2 * 3) ∧
    downloadProgressUnknown 2 1 ≤ 95 ∧
    1 * 50 * (2 * downloadProgressUnknown 2 1) ≤ 2 * (2 * 100) + 1 * 50 ∧
    (2 * (2 * 100) + 1 * 50 <
        1 * 50 * (2 * downloadProgressUnknown 2 1) + 2 * (1 * 50) ∨
      downloadProgressUnknown 2 1 = 95) :=
  downloadProgress_amended 2 3 1 (by decide) (by decide)

/-- C10: `validateTextForTTS` reports `valid = false` exactly when the
input is empty or whitespace-only (its trim is empty) or the
whitespace-normalized text is longer than 100,000 characters, and
`valid = true` otherwise. -/
theorem validateTextForTTS_valid_iff (text : List Char) :
    ((validateTextForTTS text).valid = false ↔
      (trim text = [] ∨ 100000 < (removeExtraWhitespaces text).length)) ∧
    ((validateTextForTTS text).valid = true ↔
      (trim text ≠ [] ∧ (removeExtraWhitespaces text).length ≤ 100000)) := by
  unfold validateTextForTTS
  by_cases h1 : text = [] ∨ (trim text).length = 0
  · rw [if_pos h1]
    have htr : trim text = [] := by
      rcases h1 with h | h
      · rw [h]; rfl
      · exact List.length_eq_zero.1 h
    exact ⟨iff_of_true rfl (Or.inl htr),
      iff_of_false (by simp) (fun ⟨h, _⟩ => h htr)⟩
  · rw [if_neg h1]
    have htr : trim text ≠ [] := fun h => h1 (Or.inr (by rw [h]; rfl))
    by_cases h2 : 100000 < (removeExtraWhitespaces text).length
    · rw [if_pos h2]
      exact ⟨iff_of_true rfl (Or.inr h2),
        iff_of_false (by simp) (fun ⟨_, hle⟩ => absurd h2 (not_lt.2 hle))⟩
    · rw [if_neg h2]
      exact ⟨iff_of_false (by simp) (by rintro (h | h); exacts [htr h, h2 h]),
        iff_of_true rfl ⟨htr, not_lt.1 h2⟩⟩

/-- The chunking loop body throws at the start of a chunk when the
candidate end is inside the text, no period lies at or before it, and every
period of the text lies beyond the policy threshold from the chunk start. -/
theorem chunkStep_none_at_zero {s : List Char} {m limit2 : Nat}
    (h1 : m < s.length)
    (hno : ∀ j, j ≤ m → s[j]? ≠ some '.')
    (hfar : ∀ j, s[j]? = some '.' → limit2 < 2 * j) :
    chunkStep s m limit2 0 = none := by
  unfold chunkStep
  rw [if_pos (show 0 + m < s.length by omega)]
  have hlast : lastIndexOfWithin s '.' (0 + m) = none :=
    lastIndexOfWithin_eq_none (fun j hj => hno j (by omega))
  simp only [hlast]
  unfold chunkForward
  cases hp : indexOfFrom s '.' (0 + m) with
  | none => simp only [hp]
  | some p =>
    simp only [hp]
    rw [if_pos]
    have := hfar p (indexOfFrom_eq_some hp).2
    omega

/-- C2: a single sentence longer than the limit throws.  If no period lies
at or before position `maxChunkSize` and every period of the normalized
text lies more than `1.5 × maxChunkSize` past the start (stated as
`3 * m < 2 * j`; vacuous when there is no period at all), then
`splitTextIntoChunks` throws; and under the strict-threshold versions of
those hypotheses (every period beyond `CHUNK_SIZE`), the generator
`chunkText` throws as well. -/
theorem chunking_throws_on_oversized_sentence (text : List Char) (m : Nat)
    (h1 : m < (removeExtraWhitespaces text).length)
    (h2 : ∀ j, (removeExtraWhitespaces text)[j]? = some '.' → 3 * m < 2 * j) :
    splitTextIntoChunks text m = none ∧
      (CHUNK_SIZE < (removeExtraWhitespaces text).length →
        (∀ j, (removeExtraWhitespaces text)[j]? = some '.' → CHUNK_SIZE < j) →
        chunkText text = none) := by
  constructor
  · unfold splitTextIntoChunks
    have hstep : chunkStep (removeExtraWhitespaces text) m (3 * m) 0 = none :=
      chunkStep_none_at_zero h1
        (fun j hj hc => by have := h2 j hc; omega)
        (fun j hc => h2 j hc)
    obtain ⟨k, hk⟩ : ∃ k, (removeExtraWhitespaces text).length = k + 1 :=
      ⟨(removeExtraWhitespaces text).length - 1, by omega⟩
    rw [hk]
    simp only [chunkLoop]
    rw [if_pos (by omega)]
    simp only [hstep]
  · intro h3 h4
    unfold chunkText
    have hstep : chunkStep (removeExtraWhitespaces text) CHUNK_SIZE (2 * CHUNK_SIZE) 0 = none :=
      chunkStep_none_at_zero h3
        (fun j hj hc => by have := h4 j hc; omega)
        (fun j hc => by have := h4 j hc; omega)
    obtain ⟨k, hk⟩ : ∃ k, (removeExtraWhitespaces text).length = k + 1 :=
      ⟨(removeExtraWhitespaces text).length - 1, by omega⟩
    rw [hk]
    simp only [chunkLoop]
    rw [if_pos (by omega)]
    simp only [hstep]

/-- C9: the chunking loop makes strict progress — whenever an iteration at
index `i` does not throw, the next index is strictly larger — and the loop
therefore stabilizes: any iteration budget of at least the normalized
length computes `splitTextIntoChunks` (the function always returns a finite
chunk list or throws within `length` iterations). -/
theorem splitTextIntoChunks_terminates (text : List Char) (m i e fuel : Nat)
    (hi : i < (removeExtraWhitespaces text).length)
    (hstep : chunkStep (removeExtraWhitespaces text) m (3 * m) i = some e)
    (hfuel : (removeExtraWhitespaces text).length ≤ fuel) :
    i < e ∧
      chunkLoop (removeExtraWhitespaces text) m (3 * m) fuel 0 =
        splitTextIntoChunks text m := by
  refine ⟨(chunkStep_some hi hstep).1, ?_⟩
  unfold splitTextIntoChunks
  exact chunkLoop_fuel_irrel fuel _ 0 (by omega) (by omega)

/-- Witness for C9 at `text = "ab.cd"`, `m = 3`, `i = 0` (the first
iteration ends the chunk at index 3) and budget 7. -/
theorem splitTextIntoChunks_terminates_witness :
    0 < 3 ∧
      chunkLoop (removeExtraWhitespaces "ab.cd".toList) 3 (3 * 3) 7 0 =
        splitTextIntoChunks "ab.cd".toList 3 :=
  splitTextIntoChunks_terminates "ab.cd".toList 3 0 3 7 (by decide) (by decide) (by decide)

/-- C4 (counterexample): rejoining the trimmed chunks with single spaces
does not reproduce the normalized text.  `"ab.cd"` is a single
whitespace-free run containing a period (so the claim's precondition
holds), yet chunking with `maxChunkSize = 3` yields `["ab.", "cd"]`, whose
space-join `"ab. cd"` differs from the normalized input `"ab.cd"`: the
split inserts whitespace that was never there. -/
theorem split_rejoin_cex :
    "ab.cd".toList.all (fun c => !isWs c) = true ∧ '.' ∈ "ab.cd".toList ∧
      splitTextIntoChunks "ab.cd".toList 3 = some [['a', 'b', '.'], ['c', 'd']] ∧
      joinSp ([(['a', 'b', '.'] : List Char), ['c', 'd']].map trim) ≠
        removeExtraWhitespaces "ab.cd".toList := by decide

/-- C4 (amended): whenever `splitTextIntoChunks` returns normally, the
trimmed chunks joined with single spaces reproduce the normalized input up
to whitespace: the non-whitespace characters (in order) of the space-join
equal those of `removeExtraWhitespaces(text)` — segmentation loses only
whitespace (run lengths and placement), never content. -/
theorem split_rejoin_nonWs (text : List Char) (m : Nat) (chunks : List (List Char))
    (h : splitTextIntoChunks text m = some chunks) :
    nonWs (joinSp (chunks.map trim)) = nonWs (removeExtraWhitespaces text) := by
  unfold splitTextIntoChunks at h
  have hfl := chunkLoop_flatten_nonWs _ 0 chunks (by omega) h
  rw [List.drop_zero] at hfl
  rw [nonWs_joinSp, nonWs_flatten_map_trim, hfl]

/-- Witness for the amended C4 at `text = "ab.cd"`, `m = 3`. -/
theorem split_rejoin_nonWs_witness :
    splitTextIntoChunks "ab.cd".toList 3 = some [['a', 'b', '.'], ['c', 'd']] ∧
      nonWs (joinSp ([(['a', 'b', '.'] : List Char), ['c', 'd']].map trim)) =
        nonWs (removeExtraWhitespaces "ab.cd".toList) :=
  ⟨by decide,
    split_rejoin_nonWs "ab.cd".toList 3 [['a', 'b', '.'], ['c', 'd']] (by decide)⟩

/-- Witness for C2 at a 4001-character single "sentence" with no period at
all (`'a'` repeated), with `maxChunkSize = 4000`: both segmentation
functions throw. -/
theorem chunking_throws_on_oversized_sentence_witness :
    splitTextIntoChunks (List.replicate 4001 'a') 4000 = none ∧
      chunkText (List.replicate 4001 'a') = none := by
  have hws : ∀ c ∈ List.replicate 4001 'a', isWs c = false := by
    intro c hc
    rw [List.eq_of_mem_replicate hc]
    decide
  have heq : removeExtraWhitespaces (List.replicate 4001 'a') = List.replicate 4001 'a' :=
    removeExtraWhitespaces_eq_self hws
  have hlen : (removeExtraWhitespaces (List.replicate 4001 'a')).length = 4001 := by
    rw [heq, List.length_replicate]
  have hper : ∀ j : Nat,
      (removeExtraWhitespaces (List.replicate 4001 'a'))[j]? = some '.' → False := by
    intro j hj
    rw [heq, List.getElem?_replicate] at hj
    split at hj
    · exact absurd (Option.some.inj hj) (by decide)
    · exact Option.noConfusion hj
  have h := chunking_throws_on_oversized_sentence (List.replicate 4001 'a') 4000
    (by omega) (fun j hj => (hper j hj).elim)
  refine ⟨h.1, h.2 ?_ (fun j hj => (hper j hj).elim)⟩
  show CHUNK_SIZE < _
  rw [hlen]
  decide

/-- C3: failure isolation in `convertMultiple`.  With a non-empty api key,
if job `i`'s conversion fails (its segmentation throws, or one of its chunk
requests returns no fragment), then the batch still runs to completion with
one result per input job; job `i` ends with status `error` and a non-empty
error message; every other job's final record is exactly what processing it
in isolation (with its own request outcomes) produces; and the reported
success count is the number of jobs whose final status is `success`. -/
theorem convertMultiple_failure_isolation (apiKey : String)
    (net : Nat → Nat → Option (List Nat)) (mergeB : List (List Nat) → List Nat)
    (outputs : List AudioOutput) (i : Nat) (o : AudioOutput)
    (hkey : apiKey ≠ "")
    (ho : outputs[i]? = some o)
    (htext : trim o.text ≠ [])
    (hfail : splitTextIntoChunks (removeExtraWhitespaces o.text) CHUNK_SIZE = none ∨
      ∃ chunks j,
        splitTextIntoChunks (removeExtraWhitespaces o.text) CHUNK_SIZE = some chunks ∧
        j < chunks.length ∧ net i j = none) :
    (convertMultiple apiKey net mergeB outputs).1.length = outputs.length ∧
    Option.map AudioOutput.status (convertMultiple apiKey net mergeB outputs).1[i]? =
      some JobStatus.error ∧
    (convertMultiple apiKey net mergeB outputs).1[i]?.bind AudioOutput.error ≠ none ∧
    (convertMultiple apiKey net mergeB outputs).1[i]?.bind AudioOutput.error ≠ some "" ∧
    (∀ k, k ≠ i → (convertMultiple apiKey net mergeB outputs).1[k]? =
      Option.map (processItem (net k) mergeB) outputs[k]?) ∧
    (convertMultiple apiKey net mergeB outputs).2 =
      some (((convertMultiple apiKey net mergeB outputs).1.filter
        (fun o => o.status == .success)).length) := by
  have hcm1 : (convertMultiple apiKey net mergeB outputs).1 =
      (convertLoop net mergeB outputs.length outputs 0 0).1 := by
    unfold convertMultiple
    rw [if_neg hkey]
  have hcm2 : (convertMultiple apiKey net mergeB outputs).2 =
      some (((convertLoop net mergeB outputs.length outputs 0 0).1.filter
        (fun o => o.status == .success)).length) := by
    unfold convertMultiple
    rw [if_neg hkey]
  rcases convertLoop_spec net mergeB outputs.length outputs 0 0 (by omega) with ⟨hL, hG⟩
  rcases processItem_error_of_fail (net i) mergeB o htext hfail with ⟨msg, hpi, hmsg⟩
  have hslot : (convertLoop net mergeB outputs.length outputs 0 0).1[i]? =
      some { o with status := .error, error := some msg } := by
    rw [hG i, if_neg (by omega), ho, Option.map_some', hpi]
  refine ⟨?_, ?_, ?_, ?_, ?_, ?_⟩
  · rw [hcm1, hL]
  · rw [hcm1, hslot]
    rfl
  · rw [hcm1, hslot]
    intro hcontra
    exact Option.noConfusion hcontra
  · rw [hcm1, hslot]
    intro hcontra
    exact hmsg (Option.some.inj hcontra)
  · intro k _
    rw [hcm1, hG k, if_neg (by omega)]
  · rw [hcm2, hcm1]

def fixtureJob (nm : String) (txt : List Char) : AudioOutput :=
  { id := nm, name := nm, filename := nm, sourceType := .text, text := txt,
    audioUrl := none, status := .pending, error := none }

/-- A three-job batch fixture where job 1 (0-based) suffers a transport
failure on its first chunk and the others succeed. -/
def fixtureNet (i j : Nat) : Option (List Nat) :=
  if i = 1 then none else some [i, j]

def fixtureMerge (bufs : List (List Nat)) : List Nat := bufs.flatten

def fixtureBatch : List AudioOutput :=
  [fixtureJob "one" "One.".toList, fixtureJob "two" "Two.".toList,
    fixtureJob "three" "Six.".toList]

/-- Witness for C3 on the three-job fixture: job 1 fails, jobs 0 and 2 are
exactly their in-isolation results, and the success count is reported. -/
theorem convertMultiple_failure_isolation_witness :
    (convertMultiple "key" fixtureNet fixtureMerge fixtureBatch).1.length =
      fixtureBatch.length ∧
    Option.map AudioOutput.status
      (convertMultiple "key" fixtureNet fixtureMerge fixtureBatch).1[1]? =
      some JobStatus.error ∧
    (convertMultiple "key" fixtureNet fixtureMerge fixtureBatch).1[1]?.bind
      AudioOutput.error ≠ none ∧
    (convertMultiple "key" fixtureNet fixtureMerge fixtureBatch).1[1]?.bind
      AudioOutput.error ≠ some "" ∧
    (convertMultiple "key" fixtureNet fixtureMerge fixtureBatch).1[0]? =
      Option.map (processItem (fixtureNet 0) fixtureMerge) fixtureBatch[0]? ∧
    (convertMultiple "key" fixtureNet fixtureMerge fixtureBatch).1[2]? =
      Option.map (processItem (fixtureNet 2) fixtureMerge) fixtureBatch[2]? ∧
    (convertMultiple "key" fixtureNet fixtureMerge fixtureBatch).2 =
      some (((convertMultiple "key" fixtureNet fixtureMerge fixtureBatch).1.filter
        (fun o => o.status == .success)).length) := by
  have h := convertMultiple_failure_isolation "key" fixtureNet fixtureMerge fixtureBatch 1
    (fixtureJob "two" "Two.".toList) (by decide) (by decide) (by decide)
    (Or.inr ⟨["Two.".toList], 0, by decide, by decide, rfl⟩)
  exact ⟨h.1, h.2.1, h.2.2.1, h.2.2.2.1, h.2.2.2.2.1 0 (by decide),
    h.2.2.2.2.1 2 (by decide), h.2.2.2.2.2⟩

/-- C8: a job whose text is empty or whitespace-only is marked `error` with
the no-content message (`"No text to convert"`), its final record is
independent of the network oracle (no network call is consumed for it), and
every other job of the batch is still processed normally. -/
theorem convertMultiple_empty_text (apiKey : String)
    (net : Nat → Nat → Option (List Nat)) (mergeB : List (List Nat) → List Nat)
    (outputs : List AudioOutput) (i : Nat) (o : AudioOutput)
    (hkey : apiKey ≠ "") (ho : outputs[i]? = some o) (htext : trim o.text = []) :
    (∀ net2 : Nat → Nat → Option (List Nat),
      (convertMultiple apiKey net2 mergeB outputs).1[i]? =
        some { o with status := .error, error := some noTextMessage }) ∧
    (∀ k, k ≠ i → (convertMultiple apiKey net mergeB outputs).1[k]? =
      Option.map (processItem (net k) mergeB) outputs[k]?) := by
  have hpi : ∀ netJ : Nat → Option (List Nat), processItem netJ mergeB o =
      { o with status := .error, error := some noTextMessage } := by
    intro netJ
    unfold processItem
    rw [if_pos (Or.inr htext)]
  constructor
  · intro net2
    have hcm1 : (convertMultiple apiKey net2 mergeB outputs).1 =
        (convertLoop net2 mergeB outputs.length outputs 0 0).1 := by
      unfold convertMultiple
      rw [if_neg hkey]
    rcases convertLoop_spec net2 mergeB outputs.length outputs 0 0 (by omega) with ⟨-, hG⟩
    rw [hcm1, hG i, if_neg (by omega), ho, Option.map_some', hpi]
  · intro k _
    have hcm1 : (convertMultiple apiKey net mergeB outputs).1 =
        (convertLoop net mergeB outputs.length outputs 0 0).1 := by
      unfold convertMultiple
      rw [if_neg hkey]
    rcases convertLoop_spec net mergeB outputs.length outputs 0 0 (by omega) with ⟨-, hG⟩
    rw [hcm1, hG k, if_neg (by omega)]

/-- A two-job batch whose first job has whitespace-only text. -/
def fixtureBatchEmpty : List AudioOutput :=
  [fixtureJob "empty" "   ".toList, fixtureJob "hi" "Hi.".toList]

/-- An alternative network oracle that always succeeds, used to exhibit
that the empty-text job's outcome does not depend on the network. -/
def fixtureNetOk (i j : Nat) : Option (List Nat) := some [i, j]

/-- Witness for C8 on the two-job fixture: the empty job errors with the
no-content message under two different network oracles, and the other job
is processed normally. -/
theorem convertMultiple_empty_text_witness :
    (convertMultiple "key" fixtureNet fixtureMerge fixtureBatchEmpty).1[0]? =
      some { fixtureJob "empty" "   ".toList with
        status := .error, error := some noTextMessage } ∧
    (convertMultiple "key" fixtureNetOk fixtureMerge fixtureBatchEmpty).1[0]? =
      some { fixtureJob "empty" "   ".toList with
        status := .error, error := some noTextMessage } ∧
    (convertMultiple "key" fixtureNet fixtureMerge fixtureBatchEmpty).1[1]? =
      Option.map (processItem (fixtureNet 1) fixtureMerge) fixtureBatchEmpty[1]? := by
  have h := convertMultiple_empty_text "key" fixtureNet fixtureMerge fixtureBatchEmpty 0
    (fixtureJob "empty" "   ".toList) (by decide) (by decide) (by decide)
  exact ⟨h.1 fixtureNet, h.1 fixtureNetOk, h.2 1 (by decide)⟩
